import Mathlib

/-!
Shallow embedding of the delimiter-aware file splitter
(`split_file_delimiter.py`, `split_file_simple.py`, `debug_split.py`).

Lines are modelled as `String`s (content including any trailing newline),
a file as a `List String` in original order.  File output is modelled by
returning, for every `write_part` call the script would make, the pair
`(part_number, lines)` in emission order.
-/

/-- Python `a == b` on chars of a prefix: `pat` is a prefix of `txt`. -/
def matchAt : List Char → List Char → Bool
  | [], _ => true
  | _ :: _, [] => false
  | a :: as, b :: bs => a == b && matchAt as bs

/-- Python `pat in txt` (substring test) on explicit char lists. -/
def containsSub (pat : List Char) : List Char → Bool
  | [] => pat.isEmpty
  | c :: rest => matchAt pat (c :: rest) || containsSub pat rest

/-- `line_contains_delimiter` from the source: `any(d in line for d in delimiters)`. -/
def containsDelim (delims : List String) (line : String) : Bool :=
  delims.any fun d => containsSub d.toList line.toList

/-- Python `line.strip() == ''`: every character is whitespace. -/
def isBlank (line : String) : Bool :=
  line.toList.all Char.isWhitespace

/-- Word counter state machine: `inWord` says whether the previous char was
inside a word.  Counts maximal runs of non-whitespace characters. -/
def wcAux : Bool → List Char → Nat
  | _, [] => 0
  | inWord, c :: rest =>
    if c.isWhitespace then wcAux false rest
    else (if inWord then 0 else 1) + wcAux true rest

/-- Python `len(line.split())`: number of whitespace-separated tokens. -/
def wordCount (line : String) : Nat :=
  wcAux false line.toList

/-- Total word count of a chunk of lines. -/
def wordSum (chunk : List String) : Nat :=
  (chunk.map wordCount).sum

/-- The backward walk of the source (`prev_idx = idx - 1; while blank: prev_idx -= 1`):
index of the nearest non-blank line strictly before position `i`, if any. -/
def prevNonBlank (lines : List String) : Nat → Option Nat
  | 0 => none
  | j + 1 => if isBlank (lines.getD j "") then prevNonBlank lines j else some j

/-- `find_prev_non_empty_line_is_delimiter` from `split_file_by_words`:
`False` when no non-blank predecessor exists, else whether that line
contains a delimiter.  `split_file_by_delimiter` performs the identical
check inline (lines 211-225 of the source). -/
def prevIsDelim (lines delims : List String) (i : Nat) : Bool :=
  match prevNonBlank lines i with
  | none => false
  | some p => containsDelim delims (lines.getD p "")

/-- Step 2 of `split_file_by_delimiter` applied to one delimiter index:
a delimiter position is a split point when it is position 0, or when all
preceding lines are blank, or when the nearest preceding non-blank line
does not contain a delimiter. -/
def isSplitPoint (lines delims : List String) (i : Nat) : Bool :=
  i == 0 || !prevIsDelim lines delims i

/-- Step 1 of `split_file_by_delimiter` (and of `debug_split.py`):
all positions whose line contains a delimiter. -/
def delimIdx (lines delims : List String) : List Nat :=
  (List.range lines.length).filter fun i => containsDelim delims (lines.getD i "")

/-- Step 2 of `split_file_by_delimiter` (and of `debug_split.py`):
the delimiter positions that are real split points. -/
def splitPoints (lines delims : List String) : List Nat :=
  (delimIdx lines delims).filter fun i => isSplitPoint lines delims i

namespace SplitDelim

/-- Warnings printed by `split_file_by_delimiter` (it never raises). -/
inductive SplitWarning where
  | emptyFile : SplitWarning
  | noDelimiters : SplitWarning
deriving DecidableEq

/-- Result of `split_file_by_delimiter`: the sequence of `write_part`
calls (part number and lines, in order) plus the warning printed, if any. -/
structure DelimResult where
  parts : List (Nat × List String)
  warning : Option SplitWarning
deriving DecidableEq

/-- Step 3 loop of `split_file_by_delimiter`: each section runs from one
split point to the next (the last to end of file); empty sections are
skipped, `file_count` is incremented just before each write. -/
def numberSections (lines : List String) : Nat → List Nat → List (Nat × List String)
  | _, [] => []
  | c, [s] =>
    if lines.drop s = [] then [] else [(c + 1, lines.drop s)]
  | c, s :: s2 :: rest =>
    if (lines.drop s).take (s2 - s) = [] then numberSections lines c (s2 :: rest)
    else (c + 1, (lines.drop s).take (s2 - s)) :: numberSections lines (c + 1) (s2 :: rest)

/-- `split_file_by_delimiter` from `split_file_delimiter.py` (I/O stripped):
empty file warns and writes nothing; no delimiter line warns and writes the
whole file as part 1; otherwise a non-empty leading header is written as
part 0 and each section is written in order. -/
def split_file_by_delimiter (lines delims : List String) : DelimResult :=
  if lines = [] then ⟨[], some SplitWarning.emptyFile⟩
  else if delimIdx lines delims = [] then ⟨[(1, lines)], some SplitWarning.noDelimiters⟩
  else
    match splitPoints lines delims with
    | [] => ⟨[(1, lines)], none⟩
    | fs :: tl =>
      if 0 < fs then
        ⟨(0, lines.take fs) :: numberSections lines 1 (fs :: tl), none⟩
      else
        ⟨numberSections lines 0 (fs :: tl), none⟩

/-- The `while i < len(all_lines)` loop of `split_file_by_words`
(`split_file_delimiter.py` lines 125-155).  After the split-point flush the
source re-runs the loop body on the same line with an empty chunk, which
unconditionally appends that line; the recursion fuses those two passes.
`allLines` is the full file (needed for the backward blank-line walk),
the first list argument is `allLines.drop i`. -/
def wbLoop (W : Nat) (delims allLines : List String) :
    List String → Nat → Nat → List String → Nat → List (Nat × List String)
  | [], _, fc, chunk, _ => if chunk = [] then [] else [(fc, chunk)]
  | line :: rest, i, fc, chunk, cw =>
    if W ≤ cw ∧ (delims ≠ [] ∧ containsDelim delims line = true ∧ 0 < i ∧
        prevIsDelim allLines delims i = false) ∧ chunk ≠ [] then
      (fc, chunk) :: wbLoop W delims allLines rest (i + 1) (fc + 1) [line] (wordCount line)
    else if delims = [] ∧ W < cw + wordCount line ∧ chunk ≠ [] then
      (fc, chunk) :: wbLoop W delims allLines rest (i + 1) (fc + 1) [line] (wordCount line)
    else
      wbLoop W delims allLines rest (i + 1) fc (chunk ++ [line]) (cw + wordCount line)

/-- `split_file_by_words` from `split_file_delimiter.py` (I/O stripped);
`delims` is the module-level `DELIMITER` configuration. -/
def split_file_by_words (W : Nat) (delims lines : List String) : List (Nat × List String) :=
  if lines = [] then [] else wbLoop W delims lines lines 0 1 [] 0

end SplitDelim

namespace SplitSimple

/-- The `for line in f` loop of `split_file_by_words` in
`split_file_simple.py` (lines 89-99): flush before appending whenever the
append would push the word count past the budget and the chunk is non-empty. -/
def wordsLoop (W : Nat) : List String → Nat → List String → Nat → List (Nat × List String)
  | [], fc, chunk, _ => if chunk = [] then [] else [(fc, chunk)]
  | line :: rest, fc, chunk, cw =>
    if W < cw + wordCount line ∧ chunk ≠ [] then
      (fc, chunk) :: wordsLoop W rest (fc + 1) [line] (wordCount line)
    else
      wordsLoop W rest fc (chunk ++ [line]) (cw + wordCount line)

/-- `split_file_by_words` from `split_file_simple.py` (I/O stripped). -/
def split_file_by_words (W : Nat) (lines : List String) : List (Nat × List String) :=
  wordsLoop W lines 1 [] 0

/-- The loop of `split_file_by_lines` (identical in both scripts):
append, then flush as soon as the chunk holds `L` lines. -/
def linesLoop (L : Nat) : List String → Nat → List String → List (Nat × List String)
  | [], fc, cur => if cur = [] then [] else [(fc, cur)]
  | l :: rest, fc, cur =>
    if L ≤ (cur ++ [l]).length then (fc, cur ++ [l]) :: linesLoop L rest (fc + 1) []
    else linesLoop L rest fc (cur ++ [l])

/-- `split_file_by_lines` (identical in both scripts, I/O stripped). -/
def split_file_by_lines (L : Nat) (lines : List String) : List (Nat × List String) :=
  linesLoop L lines 1 []

/-- The loop of `split_file_by_bytes` (identical in both scripts):
flush before appending when the UTF-8 byte count would pass the budget. -/
def bytesLoop (B : Nat) : List String → Nat → List String → Nat → List (Nat × List String)
  | [], fc, cur, _ => if cur = [] then [] else [(fc, cur)]
  | l :: rest, fc, cur, cb =>
    if B < cb + l.utf8ByteSize ∧ cur ≠ [] then
      (fc, cur) :: bytesLoop B rest (fc + 1) [l] l.utf8ByteSize
    else
      bytesLoop B rest fc (cur ++ [l]) (cb + l.utf8ByteSize)

/-- `split_file_by_bytes` (identical in both scripts, I/O stripped). -/
def split_file_by_bytes (B : Nat) (lines : List String) : List (Nat × List String) :=
  bytesLoop B lines 1 [] 0

/-- `split_file_into_parts` (identical in both scripts, I/O stripped):
ceiling-divide into `n` slices, writing only the non-empty ones. -/
def split_file_into_parts (n : Nat) (lines : List String) : List (Nat × List String) :=
  (List.range n).filterMap fun i =>
    let part := (lines.drop (i * ((lines.length + n - 1) / n))).take ((lines.length + n - 1) / n)
    if part = [] then none else some (i + 1, part)

end SplitSimple

/-- Number of lines emitted before chunk `k` of an output list, i.e. the
position in the original file at which chunk `k` starts (chunks are
contiguous, see the concatenation theorem). -/
def prefLen (out : List (Nat × List String)) (k : Nat) : Nat :=
  ((out.map fun p => p.2.length).take k).sum

/-- `s` and `e` delimit one section of the file: each is the file start /
a split point (resp. a split point / the file end), `s < e`, and no split
point lies strictly between them. -/
def SectBound (lines delims : List String) (s e : Nat) : Prop :=
  (s = 0 ∨ s ∈ splitPoints lines delims) ∧
  (e = lines.length ∨ e ∈ splitPoints lines delims) ∧
  s < e ∧ e ≤ lines.length ∧
  ∀ p ∈ splitPoints lines delims, ¬(s < p ∧ p < e)

/-! ### Generic list helpers -/

theorem sum_take_mono (l : List Nat) : ∀ j k, j ≤ k → (l.take j).sum ≤ (l.take k).sum := by
  induction l with
  | nil => intro j k _; simp
  | cons x t ih =>
    intro j k hjk
    cases j with
    | zero => simp
    | succ j =>
      cases k with
      | zero => omega
      | succ k =>
        simp only [List.take_succ_cons, List.sum_cons]
        exact Nat.add_le_add_left (ih j k (Nat.succ_le_succ_iff.mp hjk)) x

theorem sum_take_succ_getD (l : List Nat) : ∀ k, k < l.length →
    (l.take (k + 1)).sum = (l.take k).sum + l.getD k 0 := by
  induction l with
  | nil => intro k hk; simp at hk
  | cons x t ih =>
    intro k hk
    cases k with
    | zero => simp
    | succ k =>
      simp only [List.take_succ_cons, List.sum_cons, List.getD_cons_succ]
      rw [ih k (by simpa using hk)]
      omega

theorem getD_of_drop_cons {α : Type} {l : List α} {i : Nat} {x : α} {r : List α} (d : α)
    (h : l.drop i = x :: r) : l.getD i d = x := by
  induction l generalizing i with
  | nil => simp at h
  | cons y t ih =>
    cases i with
    | zero => simp at h; simp [h.1]
    | succ i => exact ih (by simpa using h)

theorem lt_length_of_drop_cons {α : Type} {l : List α} {i : Nat} {x : α} {r : List α}
    (h : l.drop i = x :: r) : i < l.length := by
  by_contra hc
  rw [List.drop_eq_nil_iff.mpr (by omega)] at h
  exact List.noConfusion h

theorem drop_succ_of_drop_cons {α : Type} {l : List α} {i : Nat} {x : α} {r : List α}
    (h : l.drop i = x :: r) : l.drop (i + 1) = r := by
  have : l.drop (i + 1) = (l.drop i).drop 1 := by
    rw [List.drop_drop]
  rw [this, h]
  rfl

theorem getD_mem_of_lt {α : Type} {l : List α} {k : Nat} (d : α) (h : k < l.length) :
    l.getD k d ∈ l := by
  rw [List.getD_eq_getElem l d h]
  exact List.getElem_mem h

theorem exists_interval (f : Nat → Nat) :
    ∀ m s, f 0 ≤ s → s < f m → ∃ k, k < m ∧ f k ≤ s ∧ s < f (k + 1) := by
  intro m
  induction m with
  | zero => intro s h0 hm; omega
  | succ m ih =>
    intro s h0 hm
    by_cases hs : f m ≤ s
    · exact ⟨m, Nat.lt_succ_self m, hs, hm⟩
    · obtain ⟨k, hk, h1, h2⟩ := ih s h0 (by omega)
      exact ⟨k, Nat.lt_succ_of_lt hk, h1, h2⟩

/-! ### The backward blank-line walk -/

theorem prevNonBlank_none_iff (lines : List String) (i : Nat) :
    prevNonBlank lines i = none ↔ ∀ j, j < i → isBlank (lines.getD j "") = true := by
  induction i with
  | zero => simp [prevNonBlank]
  | succ i ih =>
    rw [prevNonBlank]
    by_cases hb : isBlank (lines.getD i "") = true
    · simp only [hb, if_true, ih]
      constructor
      · intro h j hj
        rcases Nat.lt_succ_iff_lt_or_eq.mp hj with h' | h'
        · exact h j h'
        · exact h' ▸ hb
      · intro h j hj
        exact h j (Nat.lt_succ_of_lt hj)
    · simp only [hb, if_false, Bool.false_eq_true]
      constructor
      · intro h; exact absurd h (by simp)
      · intro h; exact absurd (h i (Nat.lt_succ_self i)) hb

theorem prevNonBlank_some_iff (lines : List String) (i p : Nat) :
    prevNonBlank lines i = some p ↔
      p < i ∧ isBlank (lines.getD p "") = false ∧
        ∀ j, p < j → j < i → isBlank (lines.getD j "") = true := by
  induction i with
  | zero => simp [prevNonBlank]
  | succ i ih =>
    rw [prevNonBlank]
    by_cases hb : isBlank (lines.getD i "") = true
    · simp only [hb, if_true, ih]
      constructor
      · rintro ⟨h1, h2, h3⟩
        refine ⟨Nat.lt_succ_of_lt h1, h2, fun j hj hj2 => ?_⟩
        rcases Nat.lt_succ_iff_lt_or_eq.mp hj2 with h' | h'
        · exact h3 j hj h'
        · exact h' ▸ hb
      · rintro ⟨h1, h2, h3⟩
        have hpi : p ≠ i := fun he => by rw [he, hb] at h2; exact Bool.noConfusion h2
        refine ⟨by omega, h2, fun j hj hj2 => h3 j hj (Nat.lt_succ_of_lt hj2)⟩
    · have hb' : isBlank (lines.getD i "") = false := by
        cases h : isBlank (lines.getD i "") with
        | false => rfl
        | true => exact absurd h hb
      rw [if_neg hb]
      simp only [Option.some_inj]
      constructor
      · intro h
        subst h
        exact ⟨Nat.lt_succ_self _, hb', fun j hj hj2 => by omega⟩
      · rintro ⟨h1, h2, h3⟩
        rcases (by omega : p = i ∨ p < i) with h' | h'
        · exact h'.symm
        · have hblank := h3 i h' (Nat.lt_succ_self i)
          rw [hb'] at hblank
          exact Bool.noConfusion hblank

/-! ### Split point basics -/

theorem mem_delimIdx (lines delims : List String) (i : Nat) :
    i ∈ delimIdx lines delims ↔
      i < lines.length ∧ containsDelim delims (lines.getD i "") = true := by
  simp [delimIdx, List.mem_filter, List.mem_range]

theorem delimIdx_pairwise (lines delims : List String) :
    (delimIdx lines delims).Pairwise (· < ·) :=
  (List.pairwise_lt_range lines.length).sublist (List.filter_sublist _)

theorem splitPoints_pairwise (lines delims : List String) :
    (splitPoints lines delims).Pairwise (· < ·) :=
  (delimIdx_pairwise lines delims).sublist (List.filter_sublist _)

theorem mem_splitPoints_elim (lines delims : List String) (i : Nat) :
    i ∈ splitPoints lines delims ↔
      i < lines.length ∧ containsDelim delims (lines.getD i "") = true ∧
        isSplitPoint lines delims i = true := by
  simp [splitPoints, mem_delimIdx, List.mem_filter, and_assoc]

theorem splitPoints_lt (lines delims : List String) (i : Nat)
    (h : i ∈ splitPoints lines delims) : i < lines.length :=
  ((mem_splitPoints_elim lines delims i).mp h).1

theorem splitPoints_contains (lines delims : List String) (i : Nat)
    (h : i ∈ splitPoints lines delims) :
    containsDelim delims (lines.getD i "") = true :=
  ((mem_splitPoints_elim lines delims i).mp h).2.1

theorem splitPoints_prev (lines delims : List String) (i : Nat)
    (h : i ∈ splitPoints lines delims) (hi : 0 < i) :
    prevIsDelim lines delims i = false := by
  have hs := ((mem_splitPoints_elim lines delims i).mp h).2.2
  rw [isSplitPoint] at hs
  rcases Bool.or_eq_true_iff.mp hs with h' | h'
  · simp at h'
    omega
  · simpa using h'

theorem mem_splitPoints_intro (lines delims : List String) (i : Nat)
    (h1 : i < lines.length) (h2 : containsDelim delims (lines.getD i "") = true)
    (h3 : prevIsDelim lines delims i = false) :
    i ∈ splitPoints lines delims := by
  rw [mem_splitPoints_elim]
  refine ⟨h1, h2, ?_⟩
  rw [isSplitPoint, h3]
  simp

theorem splitPoints_ne_nil (lines delims : List String)
    (h : delimIdx lines delims ≠ []) : splitPoints lines delims ≠ [] := by
  rcases hd : delimIdx lines delims with _ | ⟨d0, tl⟩
  · exact absurd hd h
  have hmem : d0 ∈ delimIdx lines delims := by rw [hd]; exact List.mem_cons_self d0 tl
  have hlt := (mem_delimIdx lines delims d0).mp hmem
  have hpw := delimIdx_pairwise lines delims
  rw [hd] at hpw
  have hmin : ∀ x ∈ tl, d0 < x := (List.pairwise_cons.mp hpw).1
  have hsp : d0 ∈ splitPoints lines delims := by
    by_cases h0 : d0 = 0
    · rw [mem_splitPoints_elim]
      refine ⟨hlt.1, hlt.2, ?_⟩
      rw [isSplitPoint, h0]
      simp
    · refine mem_splitPoints_intro lines delims d0 hlt.1 hlt.2 ?_
      unfold prevIsDelim
      rcases hp : prevNonBlank lines d0 with _ | p
      · rfl
      · have hspec := (prevNonBlank_some_iff lines d0 p).mp hp
        cases hc : containsDelim delims (lines.getD p "") with
        | false => exact hc
        | true =>
          have hpmem : p ∈ delimIdx lines delims :=
            (mem_delimIdx lines delims p).mpr ⟨by omega, hc⟩
          rw [hd] at hpmem
          rcases List.mem_cons.mp hpmem with h' | h'
          · omega
          · have := hmin p h'
            omega
  exact List.ne_nil_of_mem hsp

/-! ### Section emission (step 3 of the delimiter splitter) -/

theorem numberSections_flatten (lines : List String) :
    ∀ (sp : List Nat), sp.Pairwise (· < ·) → ∀ (c : Nat),
      ((SplitDelim.numberSections lines c sp).map Prod.snd).flatten =
        lines.drop (sp.headD lines.length) := by
  intro sp
  induction sp with
  | nil =>
    intro _ c
    simp [SplitDelim.numberSections, List.drop_length]
  | cons s tl ih =>
    intro hpw c
    cases tl with
    | nil =>
      by_cases hnil : lines.drop s = []
      · simp [SplitDelim.numberSections, hnil]
      · simp [SplitDelim.numberSections, hnil]
    | cons s2 rest =>
      have hlt : s < s2 := (List.pairwise_cons.mp hpw).1 s2 (List.mem_cons_self s2 rest)
      have hpw2 : (s2 :: rest).Pairwise (· < ·) := (List.pairwise_cons.mp hpw).2
      by_cases hnil : (lines.drop s).take (s2 - s) = []
      · have hdrop : lines.drop s = [] := by
          rcases List.take_eq_nil_iff.mp hnil with h' | h'
          · exact absurd h' (by omega)
          · exact h'
        have hlen : lines.length ≤ s := List.drop_eq_nil_iff.mp hdrop
        have hdrop2 : lines.drop s2 = [] := List.drop_eq_nil_iff.mpr (by omega)
        rw [SplitDelim.numberSections, if_pos hnil, ih hpw2 c]
        simp only [List.headD_cons]
        rw [hdrop2, hdrop]
      · rw [SplitDelim.numberSections, if_neg hnil]
        simp only [List.map_cons, List.flatten_cons, List.headD_cons]
        rw [ih hpw2 (c + 1)]
        simp only [List.headD_cons]
        have hdd : lines.drop s2 = (lines.drop s).drop (s2 - s) := by
          rw [List.drop_drop]
          congr 1
          omega
        rw [hdd, List.take_append_drop]

theorem numberSections_map_fst (lines : List String) :
    ∀ (sp : List Nat), sp.Pairwise (· < ·) → (∀ x ∈ sp, x < lines.length) → ∀ (c : Nat),
      (SplitDelim.numberSections lines c sp).map Prod.fst = List.range' (c + 1) sp.length := by
  intro sp
  induction sp with
  | nil => intro _ _ c; simp [SplitDelim.numberSections]
  | cons s tl ih =>
    intro hpw hbd c
    have hs : s < lines.length := hbd s (List.mem_cons_self s tl)
    cases tl with
    | nil =>
      have hnil : lines.drop s ≠ [] := by
        rw [Ne, List.drop_eq_nil_iff]
        omega
      simp [SplitDelim.numberSections, hnil, List.range']
    | cons s2 rest =>
      have hlt : s < s2 := (List.pairwise_cons.mp hpw).1 s2 (List.mem_cons_self s2 rest)
      have hnil : (lines.drop s).take (s2 - s) ≠ [] := by
        rw [Ne, List.take_eq_nil_iff]
        push_neg
        constructor
        · omega
        · rw [Ne, List.drop_eq_nil_iff]; omega
      rw [SplitDelim.numberSections, if_neg hnil]
      simp only [List.map_cons]
      rw [ih (List.pairwise_cons.mp hpw).2 (fun x hx => hbd x (List.mem_cons_of_mem s hx)) (c + 1)]
      simp [List.range'_succ]

theorem numberSections_nonempty (lines : List String) :
    ∀ (sp : List Nat) (c : Nat) (p : Nat × List String),
      p ∈ SplitDelim.numberSections lines c sp → p.2 ≠ [] := by
  intro sp
  induction sp with
  | nil => intro c p h; simp [SplitDelim.numberSections] at h
  | cons s tl ih =>
    intro c p h
    cases tl with
    | nil =>
      by_cases hnil : lines.drop s = []
      · simp [SplitDelim.numberSections, hnil] at h
      · simp only [SplitDelim.numberSections, if_neg hnil, List.mem_singleton] at h
        rw [h]
        exact hnil
    | cons s2 rest =>
      by_cases hnil : (lines.drop s).take (s2 - s) = []
      · rw [SplitDelim.numberSections, if_pos hnil] at h
        exact ih c p h
      · rw [SplitDelim.numberSections, if_neg hnil] at h
        rcases List.mem_cons.mp h with h' | h'
        · rw [h']
          exact hnil
        · exact ih (c + 1) p h'

/-! ### Word sums -/

theorem wordSum_singleton (l : String) : wordSum [l] = wordCount l := by
  simp [wordSum]

theorem wordSum_append_singleton (c : List String) (l : String) :
    wordSum (c ++ [l]) = wordSum c + wordCount l := by
  simp [wordSum]

theorem wordSum_take_le (c : List String) (j : Nat) : wordSum (c.take j) ≤ wordSum c := by
  unfold wordSum
  calc ((c.take j).map wordCount).sum
      ≤ ((c.take j).map wordCount).sum + ((c.drop j).map wordCount).sum := Nat.le_add_right _ _
    _ = (c.map wordCount).sum := by rw [← List.sum_append, ← List.map_append, List.take_append_drop]

/-! ### The delimiter-aware word-budget loop: basic shape -/

theorem wbLoop_flatten (W : Nat) (delims allLines : List String) :
    ∀ (rest : List String) (i fc : Nat) (chunk : List String) (cw : Nat),
      ((SplitDelim.wbLoop W delims allLines rest i fc chunk cw).map Prod.snd).flatten =
        chunk ++ rest := by
  intro rest
  induction rest with
  | nil =>
    intro i fc chunk cw
    by_cases h : chunk = []
    · simp [SplitDelim.wbLoop, h]
    · simp [SplitDelim.wbLoop, h]
  | cons line rest ih =>
    intro i fc chunk cw
    rw [SplitDelim.wbLoop]
    split
    · simp only [List.map_cons, List.flatten_cons]
      rw [ih]
      simp
    · split
      · simp only [List.map_cons, List.flatten_cons]
        rw [ih]
        simp
      · rw [ih]
        simp

theorem wbLoop_nonempty (W : Nat) (delims allLines : List String) :
    ∀ (rest : List String) (i fc : Nat) (chunk : List String) (cw : Nat)
      (p : Nat × List String),
      p ∈ SplitDelim.wbLoop W delims allLines rest i fc chunk cw → p.2 ≠ [] := by
  intro rest
  induction rest with
  | nil =>
    intro i fc chunk cw p hp
    by_cases h : chunk = []
    · simp [SplitDelim.wbLoop, h] at hp
    · rw [SplitDelim.wbLoop, if_neg h] at hp
      rw [List.mem_singleton.mp hp]
      exact h
  | cons line rest ih =>
    intro i fc chunk cw p hp
    rw [SplitDelim.wbLoop] at hp
    split at hp
    · rename_i hg
      rcases List.mem_cons.mp hp with h' | h'
      · rw [h']
        exact hg.2.2
      · exact ih (i + 1) (fc + 1) [line] (wordCount line) p h'
    · split at hp
      · rename_i hg
        rcases List.mem_cons.mp hp with h' | h'
        · rw [h']
          exact hg.2.2
        · exact ih (i + 1) (fc + 1) [line] (wordCount line) p h'
      · exact ih (i + 1) fc (chunk ++ [line]) (cw + wordCount line) p hp

theorem wbLoop_minwords (W : Nat) (delims allLines : List String) (hd : delims ≠ []) :
    ∀ (rest : List String) (i fc : Nat) (chunk : List String) (cw : Nat),
      cw = wordSum chunk →
      ∀ k, k + 1 < (SplitDelim.wbLoop W delims allLines rest i fc chunk cw).length →
        W ≤ wordSum ((SplitDelim.wbLoop W delims allLines rest i fc chunk cw).getD k (0, [])).2 := by
  intro rest
  induction rest with
  | nil =>
    intro i fc chunk cw _ k hk
    rw [SplitDelim.wbLoop] at hk
    by_cases h : chunk = []
    · rw [if_pos h] at hk
      simp at hk
    · rw [if_neg h] at hk
      simp only [List.length_singleton] at hk
      omega
  | cons line rest ih =>
    intro i fc chunk cw hcw k hk
    by_cases hg1 : W ≤ cw ∧ (delims ≠ [] ∧ containsDelim delims line = true ∧ 0 < i ∧
        prevIsDelim allLines delims i = false) ∧ chunk ≠ []
    · rw [SplitDelim.wbLoop, if_pos hg1]
      rw [SplitDelim.wbLoop, if_pos hg1, List.length_cons] at hk
      cases k with
      | zero =>
        simp only [List.getD_cons_zero]
        rw [hcw] at hg1
        exact hg1.1
      | succ k =>
        simp only [List.getD_cons_succ]
        exact ih (i + 1) (fc + 1) [line] (wordCount line) (wordSum_singleton line).symm k (by omega)
    · by_cases hg2 : delims = [] ∧ W < cw + wordCount line ∧ chunk ≠ []
      · exact absurd hg2.1 hd
      · rw [SplitDelim.wbLoop, if_neg hg1, if_neg hg2]
        rw [SplitDelim.wbLoop, if_neg hg1, if_neg hg2] at hk
        exact ih (i + 1) fc (chunk ++ [line]) (cw + wordCount line)
          (by rw [wordSum_append_singleton, hcw]) k hk

theorem wbLoop_nodelim (W : Nat) (delims allLines : List String) (hd : delims ≠ []) :
    ∀ (rest : List String) (i fc : Nat) (chunk : List String) (cw : Nat),
      (∀ l ∈ rest, containsDelim delims l = false) →
      SplitDelim.wbLoop W delims allLines rest i fc chunk cw =
        if chunk ++ rest = [] then [] else [(fc, chunk ++ rest)] := by
  intro rest
  induction rest with
  | nil =>
    intro i fc chunk cw _
    rw [SplitDelim.wbLoop]
    simp
  | cons line rest ih =>
    intro i fc chunk cw h
    have hg1 : ¬(W ≤ cw ∧ (delims ≠ [] ∧ containsDelim delims line = true ∧ 0 < i ∧
        prevIsDelim allLines delims i = false) ∧ chunk ≠ []) := by
      rintro ⟨-, ⟨-, hcd, -, -⟩, -⟩
      rw [h line (List.mem_cons_self line rest)] at hcd
      exact Bool.noConfusion hcd
    have hg2 : ¬(delims = [] ∧ W < cw + wordCount line ∧ chunk ≠ []) := by
      rintro ⟨hdd, -, -⟩
      exact hd hdd
    rw [SplitDelim.wbLoop, if_neg hg1, if_neg hg2,
      ih (i + 1) fc (chunk ++ [line]) (cw + wordCount line)
        (fun l hl => h l (List.mem_cons_of_mem line hl))]
    have hassoc : (chunk ++ [line]) ++ rest = chunk ++ line :: rest := by simp
    rw [hassoc]

theorem wbLoop_eq_wordsLoop (W : Nat) (allLines : List String) :
    ∀ (rest : List String) (i fc : Nat) (chunk : List String) (cw : Nat),
      SplitDelim.wbLoop W [] allLines rest i fc chunk cw =
        SplitSimple.wordsLoop W rest fc chunk cw := by
  intro rest
  induction rest with
  | nil =>
    intro i fc chunk cw
    rw [SplitDelim.wbLoop, SplitSimple.wordsLoop]
  | cons line rest ih =>
    intro i fc chunk cw
    have hg1 : ¬(W ≤ cw ∧ (([] : List String) ≠ [] ∧ containsDelim [] line = true ∧ 0 < i ∧
        prevIsDelim allLines [] i = false) ∧ chunk ≠ []) := by
      rintro ⟨-, ⟨hne, -, -, -⟩, -⟩
      exact hne rfl
    rw [SplitDelim.wbLoop, SplitSimple.wordsLoop, if_neg hg1]
    by_cases hg : W < cw + wordCount line ∧ chunk ≠ []
    · rw [if_pos ⟨rfl, hg.1, hg.2⟩, if_pos hg, ih]
    · have hg2 : ¬(([] : List String) = [] ∧ W < cw + wordCount line ∧ chunk ≠ []) := by
        rintro ⟨-, h1, h2⟩
        exact hg ⟨h1, h2⟩
      rw [if_neg hg2, if_neg hg, ih]

/-! ### The simple (no-delimiter) word-budget loop -/

theorem wordsLoop_nonempty (W : Nat) :
    ∀ (rest : List String) (fc : Nat) (chunk : List String) (cw : Nat)
      (p : Nat × List String),
      p ∈ SplitSimple.wordsLoop W rest fc chunk cw → p.2 ≠ [] := by
  intro rest
  induction rest with
  | nil =>
    intro fc chunk cw p hp
    rw [SplitSimple.wordsLoop] at hp
    by_cases h : chunk = []
    · simp [h] at hp
    · rw [if_neg h] at hp
      rw [List.mem_singleton.mp hp]
      exact h
  | cons line rest ih =>
    intro fc chunk cw p hp
    rw [SplitSimple.wordsLoop] at hp
    by_cases hg : W < cw + wordCount line ∧ chunk ≠ []
    · rw [if_pos hg] at hp
      rcases List.mem_cons.mp hp with h' | h'
      · rw [h']
        exact hg.2
      · exact ih (fc + 1) [line] (wordCount line) p h'
    · rw [if_neg hg] at hp
      exact ih fc (chunk ++ [line]) (cw + wordCount line) p hp

theorem wordsLoop_bound (W : Nat) :
    ∀ (rest : List String) (fc : Nat) (chunk : List String) (cw : Nat),
      cw = wordSum chunk → (2 ≤ chunk.length → wordSum chunk ≤ W) →
      ∀ k, k < (SplitSimple.wordsLoop W rest fc chunk cw).length →
        2 ≤ ((SplitSimple.wordsLoop W rest fc chunk cw).getD k (0, [])).2.length →
        wordSum ((SplitSimple.wordsLoop W rest fc chunk cw).getD k (0, [])).2 ≤ W := by
  intro rest
  induction rest with
  | nil =>
    intro fc chunk cw _ hinv k hk h2
    rw [SplitSimple.wordsLoop] at hk h2 ⊢
    by_cases h : chunk = []
    · rw [if_pos h] at hk
      simp at hk
    · rw [if_neg h] at hk h2 ⊢
      simp only [List.length_singleton] at hk
      have hk0 : k = 0 := by omega
      rw [hk0] at h2 ⊢
      simp only [List.getD_cons_zero] at h2 ⊢
      exact hinv h2
  | cons line rest ih =>
    intro fc chunk cw hcw hinv k hk h2
    rw [SplitSimple.wordsLoop] at hk h2 ⊢
    by_cases hg : W < cw + wordCount line ∧ chunk ≠ []
    · rw [if_pos hg] at hk h2 ⊢
      cases k with
      | zero =>
        simp only [List.getD_cons_zero] at h2 ⊢
        exact hinv h2
      | succ k =>
        simp only [List.getD_cons_succ] at h2 ⊢
        simp only [List.length_cons] at hk
        refine ih (fc + 1) [line] (wordCount line) (wordSum_singleton line).symm ?_ k (by omega) h2
        intro hlen
        simp at hlen
    · rw [if_neg hg] at hk h2 ⊢
      refine ih fc (chunk ++ [line]) (cw + wordCount line)
        (by rw [wordSum_append_singleton, hcw]) ?_ k hk h2
      intro hlen
      by_cases hc : chunk = []
      · rw [hc] at hlen
        simp at hlen
      · have hA : ¬(W < cw + wordCount line) := fun hA => hg ⟨hA, hc⟩
        rw [wordSum_append_singleton, ← hcw]
        omega

theorem wordsLoop_headStable (W : Nat) :
    ∀ (rest : List String) (fc : Nat) (chunk : List String) (cw : Nat), chunk ≠ [] →
      ∃ q out2, SplitSimple.wordsLoop W rest fc chunk cw = q :: out2 ∧
        q.2.headD "" = chunk.headD "" := by
  intro rest
  induction rest with
  | nil =>
    intro fc chunk cw h
    exact ⟨(fc, chunk), [], by rw [SplitSimple.wordsLoop, if_neg h], rfl⟩
  | cons line rest ih =>
    intro fc chunk cw h
    by_cases hg : W < cw + wordCount line ∧ chunk ≠ []
    · exact ⟨(fc, chunk), _, by rw [SplitSimple.wordsLoop, if_pos hg], rfl⟩
    · obtain ⟨q, out2, heq, hhd⟩ :=
        ih fc (chunk ++ [line]) (cw + wordCount line) (by simp)
      refine ⟨q, out2, by rw [SplitSimple.wordsLoop, if_neg hg]; exact heq, ?_⟩
      rw [hhd]
      rcases chunk with _ | ⟨c0, ct⟩
      · exact absurd rfl h
      · simp

theorem wordsLoop_gap (W : Nat) :
    ∀ (rest : List String) (fc : Nat) (chunk : List String) (cw : Nat),
      cw = wordSum chunk →
      ∀ k, k + 1 < (SplitSimple.wordsLoop W rest fc chunk cw).length →
        W < wordSum ((SplitSimple.wordsLoop W rest fc chunk cw).getD k (0, [])).2 +
          wordCount (((SplitSimple.wordsLoop W rest fc chunk cw).getD (k + 1) (0, [])).2.headD "") := by
  intro rest
  induction rest with
  | nil =>
    intro fc chunk cw _ k hk
    rw [SplitSimple.wordsLoop] at hk
    by_cases h : chunk = []
    · rw [if_pos h] at hk
      simp at hk
    · rw [if_neg h] at hk
      simp only [List.length_singleton] at hk
      omega
  | cons line rest ih =>
    intro fc chunk cw hcw k hk
    rw [SplitSimple.wordsLoop] at hk ⊢
    by_cases hg : W < cw + wordCount line ∧ chunk ≠ []
    · rw [if_pos hg] at hk ⊢
      cases k with
      | zero =>
        obtain ⟨q, out2, heq, hhd⟩ :=
          wordsLoop_headStable W rest (fc + 1) [line] (wordCount line) (by simp)
        simp only [List.getD_cons_zero, List.getD_cons_succ, heq, List.getD_cons_zero]
        rw [hhd]
        simp only [List.headD_cons]
        rw [← hcw]
        exact hg.1
      | succ k =>
        simp only [List.getD_cons_succ]
        simp only [List.length_cons] at hk
        exact ih (fc + 1) [line] (wordCount line) (wordSum_singleton line).symm k (by omega)
    · rw [if_neg hg] at hk ⊢
      exact ih fc (chunk ++ [line]) (cw + wordCount line)
        (by rw [wordSum_append_singleton, hcw]) k hk

/-! ### Non-emptiness for the remaining splitters -/

theorem linesLoop_nonempty (L : Nat) :
    ∀ (rest : List String) (fc : Nat) (cur : List String) (p : Nat × List String),
      p ∈ SplitSimple.linesLoop L rest fc cur → p.2 ≠ [] := by
  intro rest
  induction rest with
  | nil =>
    intro fc cur p hp
    rw [SplitSimple.linesLoop] at hp
    by_cases h : cur = []
    · simp [h] at hp
    · rw [if_neg h] at hp
      rw [List.mem_singleton.mp hp]
      exact h
  | cons l rest ih =>
    intro fc cur p hp
    rw [SplitSimple.linesLoop] at hp
    by_cases hg : L ≤ (cur ++ [l]).length
    · rw [if_pos hg] at hp
      rcases List.mem_cons.mp hp with h' | h'
      · rw [h']
        simp
      · exact ih (fc + 1) [] p h'
    · rw [if_neg hg] at hp
      exact ih fc (cur ++ [l]) p hp

theorem bytesLoop_nonempty (B : Nat) :
    ∀ (rest : List String) (fc : Nat) (cur : List String) (cb : Nat) (p : Nat × List String),
      p ∈ SplitSimple.bytesLoop B rest fc cur cb → p.2 ≠ [] := by
  intro rest
  induction rest with
  | nil =>
    intro fc cur cb p hp
    rw [SplitSimple.bytesLoop] at hp
    by_cases h : cur = []
    · simp [h] at hp
    · rw [if_neg h] at hp
      rw [List.mem_singleton.mp hp]
      exact h
  | cons l rest ih =>
    intro fc cur cb p hp
    rw [SplitSimple.bytesLoop] at hp
    by_cases hg : B < cb + l.utf8ByteSize ∧ cur ≠ []
    · rw [if_pos hg] at hp
      rcases List.mem_cons.mp hp with h' | h'
      · rw [h']
        exact hg.2
      · exact ih (fc + 1) [l] l.utf8ByteSize p h'
    · rw [if_neg hg] at hp
      exact ih fc (cur ++ [l]) (cb + l.utf8ByteSize) p hp

theorem into_parts_nonempty (n : Nat) (lines : List String) (p : Nat × List String)
    (hp : p ∈ SplitSimple.split_file_into_parts n lines) : p.2 ≠ [] := by
  unfold SplitSimple.split_file_into_parts at hp
  rw [List.mem_filterMap] at hp
  obtain ⟨i, -, hi⟩ := hp
  simp only at hi
  split at hi
  · exact Option.noConfusion hi
  · rename_i hne
    rw [← Option.some_inj.mp hi]
    exact hne

/-! ### Chunk start positions -/

theorem getD_map_len (d : Nat × List String) :
    ∀ (l : List (Nat × List String)) (k : Nat), k < l.length →
      (l.map fun p => p.2.length).getD k 0 = ((l.getD k d).2).length := by
  intro l
  induction l with
  | nil => intro k hk; simp at hk
  | cons x t ih =>
    intro k hk
    cases k with
    | zero => simp
    | succ k =>
      simp only [List.map_cons, List.getD_cons_succ]
      exact ih k (by simpa using hk)

theorem prefLen_mono (out : List (Nat × List String)) (j k : Nat) (h : j ≤ k) :
    prefLen out j ≤ prefLen out k :=
  sum_take_mono _ j k h

theorem prefLen_succ (out : List (Nat × List String)) (k : Nat) (h : k < out.length) :
    prefLen out (k + 1) = prefLen out k + ((out.getD k (0, [])).2).length := by
  unfold prefLen
  rw [sum_take_succ_getD _ k (by simpa using h), getD_map_len (0, []) out k h]

theorem prefLen_total (out : List (Nat × List String)) :
    prefLen out out.length = ((out.map Prod.snd).flatten).length := by
  unfold prefLen
  have h1 : (out.map fun p => p.2.length).take out.length = out.map fun p => p.2.length := by
    apply List.take_of_length_le
    simp
  rw [h1, List.length_flatten, List.map_map]
  rfl

theorem prefLen_zero (out : List (Nat × List String)) : prefLen out 0 = 0 := rfl

theorem prefLen_cons (n : Nat) (c : List String) (out : List (Nat × List String)) (k : Nat) :
    prefLen ((n, c) :: out) (k + 1) = c.length + prefLen out k := by
  unfold prefLen
  simp

theorem wbLoop_starts (W : Nat) (delims lines : List String) (hd : delims ≠ []) :
    ∀ (rest : List String) (i fc : Nat) (chunk : List String) (cw a : Nat),
      rest = lines.drop i → a + chunk.length = i →
      ∀ k, 0 < k → k < (SplitDelim.wbLoop W delims lines rest i fc chunk cw).length →
        a + prefLen (SplitDelim.wbLoop W delims lines rest i fc chunk cw) k ∈
          splitPoints lines delims := by
  intro rest
  induction rest with
  | nil =>
    intro i fc chunk cw a _ _ k hk0 hk
    rw [SplitDelim.wbLoop] at hk
    by_cases h : chunk = []
    · rw [if_pos h] at hk
      simp at hk
    · rw [if_neg h] at hk
      simp only [List.length_singleton] at hk
      omega
  | cons line rest ih =>
    intro i fc chunk cw a hrest ha k hk0 hk
    have hdrop : lines.drop i = line :: rest := hrest.symm
    have hil : i < lines.length := lt_length_of_drop_cons hdrop
    have hgetD : lines.getD i "" = line := getD_of_drop_cons "" hdrop
    have hrest2 : rest = lines.drop (i + 1) := (drop_succ_of_drop_cons hdrop).symm
    by_cases hg1 : W ≤ cw ∧ (delims ≠ [] ∧ containsDelim delims line = true ∧ 0 < i ∧
        prevIsDelim lines delims i = false) ∧ chunk ≠ []
    · rw [SplitDelim.wbLoop, if_pos hg1] at hk ⊢
      simp only [List.length_cons] at hk
      obtain ⟨j, rfl⟩ : ∃ j, k = j + 1 := ⟨k - 1, by omega⟩
      rw [prefLen_cons]
      have hsp : i ∈ splitPoints lines delims := by
        refine mem_splitPoints_intro lines delims i hil ?_ hg1.2.1.2.2.2
        rw [hgetD]
        exact hg1.2.1.2.1
      cases j with
      | zero =>
        show a + (chunk.length +
          prefLen (SplitDelim.wbLoop W delims lines rest (i + 1) (fc + 1) [line]
            (wordCount line)) 0) ∈ splitPoints lines delims
        rw [prefLen_zero]
        have harith : a + (chunk.length + 0) = i := by omega
        rw [harith]
        exact hsp
      | succ j =>
        have hmem := ih (i + 1) (fc + 1) [line] (wordCount line) i hrest2
          (by simp) (j + 1) (by omega) (by omega)
        have harith : a + (chunk.length +
            prefLen (SplitDelim.wbLoop W delims lines rest (i + 1) (fc + 1) [line]
              (wordCount line)) (j + 1)) =
            i + prefLen (SplitDelim.wbLoop W delims lines rest (i + 1) (fc + 1) [line]
              (wordCount line)) (j + 1) := by omega
        rw [harith]
        exact hmem
    · by_cases hg2 : delims = [] ∧ W < cw + wordCount line ∧ chunk ≠ []
      · exact absurd hg2.1 hd
      · rw [SplitDelim.wbLoop, if_neg hg1, if_neg hg2] at hk ⊢
        exact ih (i + 1) fc (chunk ++ [line]) (cw + wordCount line) a hrest2
          (by simp only [List.length_append, List.length_singleton]; omega) k hk0 hk

theorem wbLoop_chunkOk (W : Nat) (delims lines : List String) (hd : delims ≠ []) :
    ∀ (rest : List String) (i fc : Nat) (chunk : List String) (cw a : Nat),
      rest = lines.drop i → a + chunk.length = i → cw = wordSum chunk →
      (∀ p ∈ splitPoints lines delims, a < p → p < i →
        wordSum (chunk.take (p - a)) < W) →
      ∀ k, k < (SplitDelim.wbLoop W delims lines rest i fc chunk cw).length →
        ∀ p ∈ splitPoints lines delims,
          a + prefLen (SplitDelim.wbLoop W delims lines rest i fc chunk cw) k < p →
          p < a + prefLen (SplitDelim.wbLoop W delims lines rest i fc chunk cw) k +
            ((SplitDelim.wbLoop W delims lines rest i fc chunk cw).getD k (0, [])).2.length →
          wordSum (((SplitDelim.wbLoop W delims lines rest i fc chunk cw).getD k (0, [])).2.take
            (p - (a + prefLen (SplitDelim.wbLoop W delims lines rest i fc chunk cw) k))) < W := by
  intro rest
  induction rest with
  | nil =>
    intro i fc chunk cw a _ ha _ hinv k hk p hp hp1 hp2
    rw [SplitDelim.wbLoop] at hk hp1 hp2 ⊢
    by_cases h : chunk = []
    · rw [if_pos h] at hk
      simp at hk
    · rw [if_neg h] at hk hp1 hp2 ⊢
      simp only [List.length_singleton] at hk
      have hk0 : k = 0 := by omega
      rw [hk0] at hp1 hp2 ⊢
      rw [prefLen_zero] at hp1 hp2 ⊢
      simp only [List.getD_cons_zero] at hp2 ⊢
      exact hinv p hp (by omega) (by omega)
  | cons line rest ih =>
    intro i fc chunk cw a hrest ha hcw hinv k hk p hp hp1 hp2
    have hdrop : lines.drop i = line :: rest := hrest.symm
    have hil : i < lines.length := lt_length_of_drop_cons hdrop
    have hgetD : lines.getD i "" = line := getD_of_drop_cons "" hdrop
    have hrest2 : rest = lines.drop (i + 1) := (drop_succ_of_drop_cons hdrop).symm
    by_cases hg1 : W ≤ cw ∧ (delims ≠ [] ∧ containsDelim delims line = true ∧ 0 < i ∧
        prevIsDelim lines delims i = false) ∧ chunk ≠ []
    · rw [SplitDelim.wbLoop, if_pos hg1] at hk hp1 hp2 ⊢
      simp only [List.length_cons] at hk
      cases k with
      | zero =>
        rw [prefLen_zero] at hp1 hp2 ⊢
        simp only [List.getD_cons_zero] at hp2 ⊢
        exact hinv p hp (by omega) (by omega)
      | succ j =>
        rw [prefLen_cons] at hp1 hp2 ⊢
        simp only [List.getD_cons_succ] at hp2 ⊢
        have hinv2 : ∀ q ∈ splitPoints lines delims, i < q → q < i + 1 →
            wordSum (([line] : List String).take (q - i)) < W := by
          intro q _ hq1 hq2
          omega
        have hmem := ih (i + 1) (fc + 1) [line] (wordCount line) i hrest2
          (by simp) (wordSum_singleton line).symm hinv2 j (by omega) p hp
        have harith : a + (chunk.length +
            prefLen (SplitDelim.wbLoop W delims lines rest (i + 1) (fc + 1) [line]
              (wordCount line)) j) =
            i + prefLen (SplitDelim.wbLoop W delims lines rest (i + 1) (fc + 1) [line]
              (wordCount line)) j := by omega
        rw [harith] at hp1 hp2 ⊢
        exact hmem hp1 hp2
    · by_cases hg2 : delims = [] ∧ W < cw + wordCount line ∧ chunk ≠ []
      · exact absurd hg2.1 hd
      · rw [SplitDelim.wbLoop, if_neg hg1, if_neg hg2] at hk hp1 hp2 ⊢
        have hinv2 : ∀ q ∈ splitPoints lines delims, a < q → q < i + 1 →
            wordSum ((chunk ++ [line]).take (q - a)) < W := by
          intro q hq hq1 hq2
          rcases (by omega : q < i ∨ q = i) with hq3 | hq3
          · rw [List.take_append_of_le_length (by omega)]
            exact hinv q hq hq1 hq3
          · subst hq3
            have hlen : q - a = chunk.length := by omega
            rw [hlen, List.take_append_of_le_length (Nat.le_refl _), List.take_length]
            have hcne : chunk ≠ [] := by
              intro hce
              rw [hce] at ha
              simp at ha
              omega
            have hWcw : ¬(W ≤ cw) := by
              intro hW
              refine hg1 ⟨hW, ⟨hd, ?_, by omega, ?_⟩, hcne⟩
              · rw [← hgetD]
                exact splitPoints_contains lines delims q hq
              · exact splitPoints_prev lines delims q hq (by omega)
            omega
        exact ih (i + 1) fc (chunk ++ [line]) (cw + wordCount line) a hrest2
          (by simp only [List.length_append, List.length_singleton]; omega)
          (by rw [wordSum_append_singleton, hcw]) hinv2 k hk p hp hp1 hp2

/-! ### Case equations for the delimiter splitter -/

theorem delim_eq_empty (delims : List String) :
    SplitDelim.split_file_by_delimiter [] delims =
      ⟨[], some SplitDelim.SplitWarning.emptyFile⟩ := by
  unfold SplitDelim.split_file_by_delimiter
  rw [if_pos rfl]

theorem delim_eq_nodelim (lines delims : List String) (h1 : lines ≠ [])
    (h2 : delimIdx lines delims = []) :
    SplitDelim.split_file_by_delimiter lines delims =
      ⟨[(1, lines)], some SplitDelim.SplitWarning.noDelimiters⟩ := by
  unfold SplitDelim.split_file_by_delimiter
  rw [if_neg h1, if_pos h2]

theorem delim_eq_main (lines delims : List String) (h1 : lines ≠ [])
    (h2 : delimIdx lines delims ≠ []) (fs : Nat) (tl : List Nat)
    (hsp : splitPoints lines delims = fs :: tl) :
    SplitDelim.split_file_by_delimiter lines delims =
      if 0 < fs then
        ⟨(0, lines.take fs) :: SplitDelim.numberSections lines 1 (fs :: tl), none⟩
      else ⟨SplitDelim.numberSections lines 0 (fs :: tl), none⟩ := by
  unfold SplitDelim.split_file_by_delimiter
  rw [if_neg h1, if_neg h2, hsp]

/-! ### Concatenation identities -/

theorem delim_flatten (lines delims : List String) :
    ((SplitDelim.split_file_by_delimiter lines delims).parts.map Prod.snd).flatten = lines := by
  by_cases h1 : lines = []
  · rw [h1, delim_eq_empty]
    rfl
  · by_cases h2 : delimIdx lines delims = []
    · rw [delim_eq_nodelim lines delims h1 h2]
      simp
    · have hne := splitPoints_ne_nil lines delims h2
      rcases hsp : splitPoints lines delims with _ | ⟨fs, tl⟩
      · exact absurd hsp hne
      have hpw : (fs :: tl).Pairwise (· < ·) := by
        rw [← hsp]
        exact splitPoints_pairwise lines delims
      rw [delim_eq_main lines delims h1 h2 fs tl hsp]
      by_cases h3 : 0 < fs
      · rw [if_pos h3]
        simp only [List.map_cons, List.flatten_cons]
        rw [numberSections_flatten lines (fs :: tl) hpw 1]
        simp only [List.headD_cons]
        exact List.take_append_drop fs lines
      · rw [if_neg h3]
        show ((SplitDelim.numberSections lines 0 (fs :: tl)).map Prod.snd).flatten = lines
        rw [numberSections_flatten lines (fs :: tl) hpw 0]
        simp only [List.headD_cons]
        have h0 : fs = 0 := by omega
        rw [h0, List.drop_zero]

theorem words_flatten (W : Nat) (delims lines : List String) :
    ((SplitDelim.split_file_by_words W delims lines).map Prod.snd).flatten = lines := by
  unfold SplitDelim.split_file_by_words
  by_cases h1 : lines = []
  · rw [if_pos h1, h1]
    rfl
  · rw [if_neg h1, wbLoop_flatten]
    simp

/-! ### Claim theorems -/

/-- Claim C1: for every input line sequence, every delimiter set, and every
word budget, concatenating the emitted chunks in emission order yields
exactly the input line sequence, both for the delimiter-only split and for
the word-budget split (no loss, no duplication, no reordering). -/
theorem concat_chunks_eq_input (lines delims : List String) (W : Nat) :
    ((SplitDelim.split_file_by_delimiter lines delims).parts.map Prod.snd).flatten = lines ∧
    ((SplitDelim.split_file_by_words W delims lines).map Prod.snd).flatten = lines :=
  ⟨delim_flatten lines delims, words_flatten W delims lines⟩

/-- Claim C2: a position is classified as a split point iff its line
contains a delimiter and (it is position 0, or every preceding line is
blank, or the nearest preceding non-blank line contains no delimiter);
consequently a delimiter line whose nearest non-blank predecessor is a
delimiter line is not a split point, so a run of delimiter lines separated
only by blank lines yields a single boundary at the head of the run. -/
theorem boundary_iff :
    (∀ (lines delims : List String) (i : Nat), i < lines.length →
      (i ∈ splitPoints lines delims ↔
        containsDelim delims (lines.getD i "") = true ∧
          (i = 0 ∨ (∀ j, j < i → isBlank (lines.getD j "") = true) ∨
            ∃ p, p < i ∧ isBlank (lines.getD p "") = false ∧
              (∀ j, p < j → j < i → isBlank (lines.getD j "") = true) ∧
              containsDelim delims (lines.getD p "") = false))) ∧
    (∀ (lines delims : List String) (a b : Nat), a < b → b < lines.length →
      containsDelim delims (lines.getD a "") = true → isBlank (lines.getD a "") = false →
      (∀ j, a < j → j < b → isBlank (lines.getD j "") = true) →
      b ∉ splitPoints lines delims) := by
  constructor
  · intro lines delims i hi
    rw [mem_splitPoints_elim]
    constructor
    · rintro ⟨-, hc, hsp⟩
      refine ⟨hc, ?_⟩
      rw [isSplitPoint] at hsp
      rcases Bool.or_eq_true_iff.mp hsp with h0 | hnp
      · exact Or.inl (by simpa using h0)
      · have hpd : prevIsDelim lines delims i = false := by simpa using hnp
        unfold prevIsDelim at hpd
        rcases hq : prevNonBlank lines i with _ | p
        · exact Or.inr (Or.inl ((prevNonBlank_none_iff lines i).mp hq))
        · rw [hq] at hpd
          have hspec := (prevNonBlank_some_iff lines i p).mp hq
          exact Or.inr (Or.inr ⟨p, hspec.1, hspec.2.1, hspec.2.2, hpd⟩)
    · rintro ⟨hc, hdis⟩
      refine ⟨hi, hc, ?_⟩
      rw [isSplitPoint]
      rcases hdis with h0 | hall | ⟨p, hp1, hp2, hp3, hp4⟩
      · subst h0
        rfl
      · have hnone : prevNonBlank lines i = none := (prevNonBlank_none_iff lines i).mpr hall
        have hpd : prevIsDelim lines delims i = false := by
          unfold prevIsDelim
          rw [hnone]
        rw [hpd]
        simp
      · have hsome : prevNonBlank lines i = some p :=
          (prevNonBlank_some_iff lines i p).mpr ⟨hp1, hp2, hp3⟩
        have hpd : prevIsDelim lines delims i = false := by
          unfold prevIsDelim
          rw [hsome]
          exact hp4
        rw [hpd]
        simp
  · intro lines delims a b hab hb hca hba hblank hmem
    have hpd : prevIsDelim lines delims b = false :=
      splitPoints_prev lines delims b hmem (by omega)
    have hq : prevNonBlank lines b = some a :=
      (prevNonBlank_some_iff lines b a).mpr ⟨hab, hba, hblank⟩
    unfold prevIsDelim at hpd
    rw [hq] at hpd
    have hpd2 : containsDelim delims (lines.getD a "") = false := hpd
    rw [hca] at hpd2
    exact Bool.noConfusion hpd2

/-- Witness: position 0 of a one-line file whose line contains the
delimiter is a split point, via the classification theorem. -/
theorem boundary_iff_witness : 0 ∈ splitPoints ["# a"] ["#"] :=
  (boundary_iff.1 ["# a"] ["#"] 0 (by decide)).mpr ⟨by decide, Or.inl rfl⟩

/-- Claim C3 counterexample: with budget 10 and delimiter "#", the file
["# s1", "a b c d e f", "# s2", "g h i j k l"] is emitted as one chunk of
16 words that spans two sections (split point 2 lies strictly inside it),
so it is false that every chunk with word count over the budget consists
of a single section. -/
theorem budget_exception_cex :
    ¬ (∀ k, k < (SplitDelim.split_file_by_words 10 ["#"]
          ["# s1", "a b c d e f", "# s2", "g h i j k l"]).length →
        wordSum ((SplitDelim.split_file_by_words 10 ["#"]
          ["# s1", "a b c d e f", "# s2", "g h i j k l"]).getD k (0, [])).2 ≤ 10 ∨
        ¬ ∃ p, p ∈ splitPoints ["# s1", "a b c d e f", "# s2", "g h i j k l"] ["#"] ∧
            prefLen (SplitDelim.split_file_by_words 10 ["#"]
              ["# s1", "a b c d e f", "# s2", "g h i j k l"]) k < p ∧
            p < prefLen (SplitDelim.split_file_by_words 10 ["#"]
              ["# s1", "a b c d e f", "# s2", "g h i j k l"]) k +
              ((SplitDelim.split_file_by_words 10 ["#"]
                ["# s1", "a b c d e f", "# s2", "g h i j k l"]).getD k (0, [])).2.length) := by
  intro h
  rcases h 0 (by decide) with h1 | h2
  · exact absurd h1 (by decide)
  · exact h2 ⟨2, by decide, by decide, by decide⟩

/-- Claim C3 (amended): in the word-budget variant with a non-empty
delimiter set, the budget is a soft ceiling checked only at split points:
for every emitted chunk and every split point lying strictly inside it,
the words of the chunk accumulated before that split point number fewer
than W.  (A chunk may still exceed W while containing several sections;
only its final section can carry it to or past the budget.) -/
theorem budget_soft_ceiling_amended (lines delims : List String) (W : Nat)
    (hd : delims ≠ []) :
    ∀ k, k < (SplitDelim.split_file_by_words W delims lines).length →
      ∀ p ∈ splitPoints lines delims,
        prefLen (SplitDelim.split_file_by_words W delims lines) k < p →
        p < prefLen (SplitDelim.split_file_by_words W delims lines) k +
          ((SplitDelim.split_file_by_words W delims lines).getD k (0, [])).2.length →
        wordSum (((SplitDelim.split_file_by_words W delims lines).getD k (0, [])).2.take
          (p - prefLen (SplitDelim.split_file_by_words W delims lines) k)) < W := by
  unfold SplitDelim.split_file_by_words
  by_cases h1 : lines = []
  · rw [if_pos h1]
    intro k hk
    simp at hk
  · rw [if_neg h1]
    intro k hk p hp hp1 hp2
    have hres := wbLoop_chunkOk W delims lines hd lines 0 1 [] 0 0 (List.drop_zero _).symm
      (by simp) rfl (by intro q hq hq1 hq2; omega) k hk p hp
      (by simpa using hp1) (by simpa using hp2)
    simpa using hres

/-- Witness: on the counterexample file the unique chunk's words before
the inner split point 2 number 8 < 10, via the amended theorem. -/
theorem budget_soft_ceiling_amended_witness :
    wordSum (((SplitDelim.split_file_by_words 10 ["#"]
        ["# s1", "a b c d e f", "# s2", "g h i j k l"]).getD 0 (0, [])).2.take
      (2 - prefLen (SplitDelim.split_file_by_words 10 ["#"]
        ["# s1", "a b c d e f", "# s2", "g h i j k l"]) 0)) < 10 :=
  budget_soft_ceiling_amended ["# s1", "a b c d e f", "# s2", "g h i j k l"] ["#"] 10
    (by decide) 0 (by decide) 2 (by decide) (by decide) (by decide)

/-- Claim C4: in the word-budget variant with a non-empty delimiter set,
the first chunk starts at line 0, every later chunk starts at a split
point, and every section (a span between consecutive section bounds, with
no split point strictly inside) lies whole inside exactly one chunk — in
particular an oversized section is never severed across chunks. -/
theorem chunk_starts_and_sections_whole (lines delims : List String) (W : Nat)
    (hd : delims ≠ []) :
    prefLen (SplitDelim.split_file_by_words W delims lines) 0 = 0 ∧
    (∀ k, 0 < k → k < (SplitDelim.split_file_by_words W delims lines).length →
      prefLen (SplitDelim.split_file_by_words W delims lines) k ∈ splitPoints lines delims) ∧
    (∀ s e, SectBound lines delims s e →
      ∃ k, (k < (SplitDelim.split_file_by_words W delims lines).length ∧
        prefLen (SplitDelim.split_file_by_words W delims lines) k ≤ s ∧
        e ≤ prefLen (SplitDelim.split_file_by_words W delims lines) (k + 1)) ∧
        ∀ k2, (k2 < (SplitDelim.split_file_by_words W delims lines).length ∧
          prefLen (SplitDelim.split_file_by_words W delims lines) k2 ≤ s ∧
          e ≤ prefLen (SplitDelim.split_file_by_words W delims lines) (k2 + 1)) → k2 = k) := by
  have hstarts : ∀ k, 0 < k → k < (SplitDelim.split_file_by_words W delims lines).length →
      prefLen (SplitDelim.split_file_by_words W delims lines) k ∈ splitPoints lines delims := by
    unfold SplitDelim.split_file_by_words
    by_cases h1 : lines = []
    · rw [if_pos h1]
      intro k hk0 hk
      simp at hk
    · rw [if_neg h1]
      intro k hk0 hk
      have hres := wbLoop_starts W delims lines hd lines 0 1 [] 0 0
        (List.drop_zero _).symm (by simp) k hk0 hk
      simpa using hres
  refine ⟨rfl, hstarts, ?_⟩
  rintro s e ⟨hs, he, hse, hel, hnob⟩
  have htot : prefLen (SplitDelim.split_file_by_words W delims lines)
      (SplitDelim.split_file_by_words W delims lines).length = lines.length := by
    rw [prefLen_total, words_flatten]
  obtain ⟨k, hk, hk1, hk2⟩ := exists_interval
    (prefLen (SplitDelim.split_file_by_words W delims lines))
    (SplitDelim.split_file_by_words W delims lines).length s
    (by rw [prefLen_zero]; omega) (by omega)
  have hke : e ≤ prefLen (SplitDelim.split_file_by_words W delims lines) (k + 1) := by
    by_contra hlt
    push_neg at hlt
    have hk1lt : k + 1 < (SplitDelim.split_file_by_words W delims lines).length := by
      by_contra hge
      push_neg at hge
      have hmono := prefLen_mono (SplitDelim.split_file_by_words W delims lines)
        (SplitDelim.split_file_by_words W delims lines).length (k + 1) hge
      omega
    have hmem := hstarts (k + 1) (by omega) hk1lt
    exact hnob _ hmem ⟨by omega, by omega⟩
  refine ⟨k, ⟨hk, hk1, hke⟩, ?_⟩
  rintro k2 ⟨hk2m, hk2s, hk2e⟩
  by_contra hne2
  rcases (by omega : k2 < k ∨ k < k2) with hlt | hlt
  · have hmono := prefLen_mono (SplitDelim.split_file_by_words W delims lines)
      (k2 + 1) k (by omega)
    omega
  · have hmono := prefLen_mono (SplitDelim.split_file_by_words W delims lines)
      (k + 1) k2 (by omega)
    omega

/-- Witness: on ["# a", "x", "# b", "y"] with budget 1 the second chunk
starts at position 2, which is a split point, via the C4 theorem. -/
theorem chunk_starts_witness :
    prefLen (SplitDelim.split_file_by_words 1 ["#"] ["# a", "x", "# b", "y"]) 1 ∈
      splitPoints ["# a", "x", "# b", "y"] ["#"] :=
  (chunk_starts_and_sections_whole ["# a", "x", "# b", "y"] ["#"] 1 (by decide)).2.1 1
    (by decide) (by decide)

/-- Claim C5: in the word-budget variant with a non-empty delimiter set
and positive budget, a chunk is flushed only when the accumulated word
count has reached the budget at a split point, so every emitted chunk
except the last has word count at least W. -/
theorem nonlast_chunks_reach_budget (lines delims : List String) (W : Nat)
    (hd : delims ≠ []) (_hW : 0 < W) :
    ∀ k, k + 1 < (SplitDelim.split_file_by_words W delims lines).length →
      W ≤ wordSum ((SplitDelim.split_file_by_words W delims lines).getD k (0, [])).2 := by
  unfold SplitDelim.split_file_by_words
  by_cases h1 : lines = []
  · rw [if_pos h1]
    intro k hk
    simp at hk
  · rw [if_neg h1]
    intro k hk
    exact wbLoop_minwords W delims lines hd lines 0 1 [] 0 rfl k hk

/-- Witness: on ["# a", "x", "# b", "y"] with budget 1, the first of the
two emitted chunks holds at least 1 word, via the C5 theorem. -/
theorem nonlast_chunks_reach_budget_witness :
    1 ≤ wordSum ((SplitDelim.split_file_by_words 1 ["#"] ["# a", "x", "# b", "y"]).getD 0
      (0, [])).2 :=
  nonlast_chunks_reach_budget ["# a", "x", "# b", "y"] ["#"] 1 (by decide) (by decide) 0
    (by decide)

/-- Claim C6 counterexample: with budget 3, the first line "a b c d e"
(5 words) of ["a b c d e", "f"] is appended to an empty chunk, so after a
completed append the chunk's word count is 5 > 3 — the clause that no
chunk's word count exceeds W after any completed append is false. -/
theorem strict_greedy_cex :
    ¬ (∀ k, k < (SplitSimple.split_file_by_words 3 ["a b c d e", "f"]).length →
        ∀ j, j ≤ ((SplitSimple.split_file_by_words 3 ["a b c d e", "f"]).getD k (0, [])).2.length →
          wordSum (((SplitSimple.split_file_by_words 3 ["a b c d e", "f"]).getD k
            (0, [])).2.take j) ≤ 3) := by
  intro h
  exact absurd (h 0 (by decide) 1 (by decide)) (by decide)

/-- Claim C6 (amended): with no delimiters the fallback loop of the
delimiter script coincides with the simple script's splitter; a flush
happens exactly when appending the next chunk's first line would push the
count past W (so consecutive chunks overlap the budget by that line); an
append to an already non-empty chunk never lifts the count above W (all
prefixes of length at least 2 stay within W — only a first line may
exceed the budget on its own); hence no chunk exceeds W by more than the
word count of its own first line. -/
theorem strict_greedy_amended (W : Nat) (lines : List String) :
    SplitDelim.split_file_by_words W [] lines = SplitSimple.split_file_by_words W lines ∧
    (∀ k, k + 1 < (SplitSimple.split_file_by_words W lines).length →
      W < wordSum ((SplitSimple.split_file_by_words W lines).getD k (0, [])).2 +
        wordCount (((SplitSimple.split_file_by_words W lines).getD (k + 1) (0, [])).2.headD "")) ∧
    (∀ k, k < (SplitSimple.split_file_by_words W lines).length →
      ∀ j, 2 ≤ j → j ≤ ((SplitSimple.split_file_by_words W lines).getD k (0, [])).2.length →
        wordSum (((SplitSimple.split_file_by_words W lines).getD k (0, [])).2.take j) ≤ W) ∧
    (∀ k, k < (SplitSimple.split_file_by_words W lines).length →
      wordSum ((SplitSimple.split_file_by_words W lines).getD k (0, [])).2 ≤
        W + wordCount (((SplitSimple.split_file_by_words W lines).getD k (0, [])).2.headD "")) := by
  refine ⟨?_, ?_, ?_, ?_⟩
  · unfold SplitDelim.split_file_by_words SplitSimple.split_file_by_words
    by_cases h1 : lines = []
    · rw [if_pos h1, h1]
      rfl
    · rw [if_neg h1]
      exact wbLoop_eq_wordsLoop W lines lines 0 1 [] 0
  · intro k hk
    unfold SplitSimple.split_file_by_words at hk ⊢
    exact wordsLoop_gap W lines 1 [] 0 rfl k hk
  · intro k hk j hj2 hjlen
    unfold SplitSimple.split_file_by_words at hk hjlen ⊢
    have hb := wordsLoop_bound W lines 1 [] 0 rfl (by intro h2; simp at h2) k hk (by omega)
    calc wordSum (((SplitSimple.wordsLoop W lines 1 [] 0).getD k (0, [])).2.take j)
        ≤ wordSum ((SplitSimple.wordsLoop W lines 1 [] 0).getD k (0, [])).2 :=
          wordSum_take_le _ j
      _ ≤ W := hb
  · intro k hk
    unfold SplitSimple.split_file_by_words at hk ⊢
    rcases hc : ((SplitSimple.wordsLoop W lines 1 [] 0).getD k (0, [])).2 with _ | ⟨c0, ct⟩
    · simp [wordSum]
    · rcases ct with _ | ⟨c1, ct2⟩
      · simp only [wordSum_singleton, List.headD_cons]
        omega
      · have hb := wordsLoop_bound W lines 1 [] 0 rfl (by intro h2; simp at h2) k hk
          (by rw [hc]; simp)
        rw [hc] at hb
        simp only [List.headD_cons]
        omega

/-- Witness: on ["a b c d e", "f"] with budget 3, the flush separating the
two chunks happened because 5 + 1 > 3, via the amended theorem. -/
theorem strict_greedy_amended_witness :
    3 < wordSum ((SplitSimple.split_file_by_words 3 ["a b c d e", "f"]).getD 0 (0, [])).2 +
      wordCount (((SplitSimple.split_file_by_words 3 ["a b c d e", "f"]).getD 1
        (0, [])).2.headD "") :=
  (strict_greedy_amended 3 ["a b c d e", "f"]).2.1 0 (by decide)

/-- Claim C7 counterexample: splitting ["intro", "# a"] on "#" emits the
leading pre-boundary chunk as part 0 and the section as part 2 — the part
numbers are [0, 2], not the claimed consecutive [0, 1]. -/
theorem part_numbering_gap_cex :
    (SplitDelim.split_file_by_delimiter ["intro", "# a"] ["#"]).parts.map Prod.fst = [0, 2] ∧
    ([0, 2] : List Nat) ≠ [0, 1] := by
  constructor
  · decide
  · decide

/-- Claim C7 (amended): when no leading chunk is emitted (the first split
point is position 0) the part numbers are 1, 2, ..., consecutively; when a
non-empty leading pre-boundary chunk exists it is numbered 0 and the
remaining parts are numbered consecutively from 2 — the number 1 is
skipped, because the section loop increments the counter before writing. -/
theorem part_numbering_amended (lines delims : List String)
    (h1 : lines ≠ []) (h2 : delimIdx lines delims ≠ []) :
    ((splitPoints lines delims).headD 0 = 0 →
      (SplitDelim.split_file_by_delimiter lines delims).parts.map Prod.fst =
        List.range' 1 (splitPoints lines delims).length) ∧
    (0 < (splitPoints lines delims).headD 0 →
      (SplitDelim.split_file_by_delimiter lines delims).parts.map Prod.fst =
        0 :: List.range' 2 (splitPoints lines delims).length) := by
  have hne := splitPoints_ne_nil lines delims h2
  rcases hsp : splitPoints lines delims with _ | ⟨fs, tl⟩
  · exact absurd hsp hne
  have hpw : (fs :: tl).Pairwise (· < ·) := by
    rw [← hsp]
    exact splitPoints_pairwise lines delims
  have hbd : ∀ x ∈ fs :: tl, x < lines.length := by
    intro x hx
    refine splitPoints_lt lines delims x ?_
    rw [hsp]
    exact hx
  rw [delim_eq_main lines delims h1 h2 fs tl hsp]
  constructor
  · intro h0
    simp only [List.headD_cons] at h0
    rw [if_neg (by omega : ¬ 0 < fs)]
    show (SplitDelim.numberSections lines 0 (fs :: tl)).map Prod.fst =
      List.range' 1 (fs :: tl).length
    rw [numberSections_map_fst lines (fs :: tl) hpw hbd 0]
  · intro h0
    simp only [List.headD_cons] at h0
    rw [if_pos h0]
    show ((0, lines.take fs) :: SplitDelim.numberSections lines 1 (fs :: tl)).map Prod.fst =
      0 :: List.range' 2 (fs :: tl).length
    simp only [List.map_cons]
    rw [numberSections_map_fst lines (fs :: tl) hpw hbd 1]

/-- Witness: on ["intro", "# a"] with delimiter "#" the amended numbering
0 :: [2] is produced, via the amended theorem. -/
theorem part_numbering_amended_witness :
    (SplitDelim.split_file_by_delimiter ["intro", "# a"] ["#"]).parts.map Prod.fst =
      0 :: List.range' 2 (splitPoints ["intro", "# a"] ["#"]).length :=
  (part_numbering_amended ["intro", "# a"] ["#"] (by decide) (by decide)).2 (by decide)

/-- Claim C8: a non-empty file none of whose lines contains a delimiter is
emitted as exactly one chunk holding the entire input: the delimiter-only
splitter writes it as part 1 with the no-delimiters warning (not an
error), and the word-budget splitter with delimiters configured emits the
whole file as one chunk regardless of the budget. -/
theorem no_delimiter_single_chunk (lines delims : List String) (W : Nat)
    (hne : lines ≠ []) (hnod : ∀ l ∈ lines, containsDelim delims l = false) :
    SplitDelim.split_file_by_delimiter lines delims =
      ⟨[(1, lines)], some SplitDelim.SplitWarning.noDelimiters⟩ ∧
    (delims ≠ [] → SplitDelim.split_file_by_words W delims lines = [(1, lines)]) := by
  have hdi : delimIdx lines delims = [] := by
    unfold delimIdx
    rw [List.filter_eq_nil_iff]
    intro i hi
    rw [List.mem_range] at hi
    rw [hnod (lines.getD i "") (getD_mem_of_lt "" hi)]
    simp
  constructor
  · exact delim_eq_nodelim lines delims hne hdi
  · intro hd
    unfold SplitDelim.split_file_by_words
    rw [if_neg hne, wbLoop_nodelim W delims lines hd lines 0 1 [] 0 hnod]
    rw [List.nil_append, if_neg hne]

/-- Witness: the one-line file ["a"] with delimiter "#" is written whole
as part 1 with the no-delimiters warning, via the C8 theorem. -/
theorem no_delimiter_single_chunk_witness :
    SplitDelim.split_file_by_delimiter ["a"] ["#"] =
      ⟨[(1, ["a"])], some SplitDelim.SplitWarning.noDelimiters⟩ :=
  (no_delimiter_single_chunk ["a"] ["#"] 5 (by decide) (by decide)).1

/-- Claim C9: on empty input both the delimiter-only splitter and the
word-budget splitters emit zero chunks (so no file is written), the
delimiter splitter reporting the empty-file warning rather than raising. -/
theorem empty_input_zero_chunks (delims : List String) (W : Nat) :
    (SplitDelim.split_file_by_delimiter [] delims).parts = [] ∧
    (SplitDelim.split_file_by_delimiter [] delims).warning =
      some SplitDelim.SplitWarning.emptyFile ∧
    SplitDelim.split_file_by_words W delims [] = [] ∧
    SplitSimple.split_file_by_words W [] = [] := by
  refine ⟨?_, ?_, ?_, ?_⟩ <;> rfl

/-- Claim C10: in every split variant — word-budget with or without
delimiters, delimiter-only (header chunk included), lines, bytes, and
parts — every chunk handed to the writer is a non-empty list of lines, so
no empty output file is ever created. -/
theorem writer_never_empty (lines delims : List String) (W L B n : Nat) :
    (∀ p ∈ SplitDelim.split_file_by_words W delims lines, p.2 ≠ []) ∧
    (∀ p ∈ (SplitDelim.split_file_by_delimiter lines delims).parts, p.2 ≠ []) ∧
    (∀ p ∈ SplitSimple.split_file_by_words W lines, p.2 ≠ []) ∧
    (∀ p ∈ SplitSimple.split_file_by_lines L lines, p.2 ≠ []) ∧
    (∀ p ∈ SplitSimple.split_file_by_bytes B lines, p.2 ≠ []) ∧
    (∀ p ∈ SplitSimple.split_file_into_parts n lines, p.2 ≠ []) := by
  refine ⟨?_, ?_, ?_, ?_, ?_, ?_⟩
  · intro p hp
    unfold SplitDelim.split_file_by_words at hp
    by_cases h1 : lines = []
    · rw [if_pos h1] at hp
      simp at hp
    · rw [if_neg h1] at hp
      exact wbLoop_nonempty W delims lines lines 0 1 [] 0 p hp
  · intro p hp
    by_cases h1 : lines = []
    · rw [h1, delim_eq_empty] at hp
      simp at hp
    · by_cases h2 : delimIdx lines delims = []
      · rw [delim_eq_nodelim lines delims h1 h2] at hp
        rw [List.mem_singleton.mp hp]
        exact h1
      · have hne := splitPoints_ne_nil lines delims h2
        rcases hsp : splitPoints lines delims with _ | ⟨fs, tl⟩
        · exact absurd hsp hne
        rw [delim_eq_main lines delims h1 h2 fs tl hsp] at hp
        by_cases h3 : 0 < fs
        · rw [if_pos h3] at hp
          rcases List.mem_cons.mp hp with h4 | h4
          · rw [h4]
            show lines.take fs ≠ []
            rw [Ne, List.take_eq_nil_iff]
            push_neg
            exact ⟨by omega, h1⟩
          · exact numberSections_nonempty lines (fs :: tl) 1 p h4
        · rw [if_neg h3] at hp
          exact numberSections_nonempty lines (fs :: tl) 0 p hp
  · intro p hp
    unfold SplitSimple.split_file_by_words at hp
    exact wordsLoop_nonempty W lines 1 [] 0 p hp
  · intro p hp
    unfold SplitSimple.split_file_by_lines at hp
    exact linesLoop_nonempty L lines 1 [] p hp
  · intro p hp
    unfold SplitSimple.split_file_by_bytes at hp
    exact bytesLoop_nonempty B lines 1 [] 0 p hp
  · exact fun p hp => into_parts_nonempty n lines p hp

/-- Witness: the single chunk produced by the line splitter on ["a"] with
one line per part is non-empty, via the C10 theorem. -/
theorem writer_never_empty_witness : (["a"] : List String) ≠ [] :=
  (writer_never_empty ["a"] [] 1 1 1 1).2.2.2.1 (1, ["a"]) (by decide)
